import Mathlib

/-!
Verification of the skyhook file server core (src/skyhook/security.py and
src/skyhook/server.py) against its natural-language specification.

Modelling conventions:
* A Python `str` used as a path is modelled as `List Char` (Python strings are
  sequences of code points); a filesystem path is a list of path segments,
  each a `List Char`, relative to the filesystem root `/`.
* `pathlib.Path.resolve()` (canonicalization: symlink traversal plus `..`/`.`
  elimination) is operating-system behaviour, not repository code; theorems
  about `sanitize_path` therefore quantify over an arbitrary canonicalization
  function `resolve`, and `lexResolve` below is the concrete canonicalization
  on a symlink-free filesystem used for concrete instances.
* `HTTPException(status_code, detail, headers)` is modelled by `HTTPError`;
  a Python function that may raise returns `Except HTTPError _`.
-/

set_option autoImplicit false

namespace Skyhook

/-- Model of FastAPI `HTTPException` as raised by the skyhook code:
status code, detail string, extra response headers. -/
structure HTTPError where
  status : Nat
  detail : String
  headers : List (String × String)
deriving DecidableEq, Repr

/-- A path segment: the characters between two `/` separators. -/
abbrev Seg := List Char

/-- Split a character string on `'/'`, keeping empty pieces
(`splitSlash "a//b" = ["a", "", "b"]`, `splitSlash "" = [""]`). -/
def splitSlash : List Char → List Seg
  | [] => [[]]
  | c :: cs =>
    match splitSlash cs with
    | [] => [[]]
    | s :: rest => if c = '/' then [] :: s :: rest else (c :: s) :: rest

/-- The path segments of a Python `pathlib` path string: `pathlib` drops
empty components and single-dot components when parsing, keeping `..`. -/
def parseSegs (s : List Char) : List Seg :=
  (splitSlash s).filter (fun seg => !(seg == [] || seg == ['.']))

/-- Join segments back into a path string with `/` separators. -/
def joinSegs : List Seg → List Char
  | [] => []
  | [s] => s
  | s :: rest => s ++ '/' :: joinSegs rest

/-- The 403 error raised by `sanitize_path` on a traversal attempt
(src/skyhook/security.py lines 79-82). -/
def traversalError : HTTPError :=
  ⟨403, "Access denied: Path traversal attempt detected", []⟩

/-- Embedding of `sanitize_path(base_path, requested_path)`
(src/skyhook/security.py lines 55-84):
strip leading slashes from the requested string, join with the base,
canonicalize via `resolve`, then require the canonical result to have the
canonical base as a segment-wise prefix (`Path.relative_to` succeeds exactly
when the other path is a segment prefix), else raise the 403 error.
`resolve` is the OS canonicalization (`Path.resolve()`), passed as a
parameter. -/
def sanitize_path (resolve : List Seg → List Seg) (base : List Seg)
    (requested : List Char) : Except HTTPError (List Seg) :=
  let requested := requested.dropWhile (· = '/')
  let full := resolve (base ++ parseSegs requested)
  if (resolve base).isPrefixOf full then .ok full
  else .error traversalError

/-- One canonicalization step: `..` drops the last resolved segment (at the
root `..` stays at the root), `.` and empty segments vanish, anything else
is appended. -/
def lexStep (acc : List Seg) (s : Seg) : List Seg :=
  if s = ['.', '.'] then acc.dropLast
  else if s = ['.'] ∨ s = [] then acc
  else acc ++ [s]

/-- Canonicalization on a filesystem with no symbolic links: process segments
left to right from the root. -/
def lexResolve (segs : List Seg) : List Seg :=
  segs.foldl lexStep []

/-- A well-formed path segment: nonempty, not `.`, and free of `/`
(the shape `Path.resolve()` output segments always have). -/
def wfSeg (s : Seg) : Prop := s ≠ [] ∧ s ≠ ['.'] ∧ '/' ∉ s

instance (s : Seg) : Decidable (wfSeg s) := by unfold wfSeg; infer_instance

/-- All segments of a path are well-formed. -/
def wfSegs (l : List Seg) : Prop := ∀ s ∈ l, wfSeg s

instance (l : List Seg) : Decidable (wfSegs l) := List.decidableBAll _ l

/-- C1: for every canonicalization function, base root and client-supplied
requested string (covering `../` sequences, absolute prefixes, symlink
escapes via arbitrary `resolve` behaviour, and prefix confusion, since the
containment check is segment-wise), `sanitize_path` either raises the 403
traversal error or returns the canonicalized path, which has the
canonicalized root as a segment-wise prefix (equal to the root or a
descendant); the error is raised if and only if the canonicalized path
escapes the root — existence of the target is never consulted, so a
non-existent location inside the root is not an error. -/
theorem sanitize_path_containment (resolve : List Seg → List Seg)
    (base : List Seg) (requested : List Char) :
    (∀ p, sanitize_path resolve base requested = .ok p →
        p = resolve (base ++ parseSegs (requested.dropWhile (· = '/')))
        ∧ (resolve base).isPrefixOf p = true)
    ∧ (sanitize_path resolve base requested = .error traversalError ↔
        (resolve base).isPrefixOf
          (resolve (base ++ parseSegs (requested.dropWhile (· = '/')))) = false) := by
  unfold sanitize_path
  by_cases h : (resolve base).isPrefixOf
      (resolve (base ++ parseSegs (requested.dropWhile (· = '/')))) = true
  · simp only [h, if_true]
    refine ⟨fun p hp => ?_, ?_⟩
    · cases hp
      exact ⟨rfl, h⟩
    · simp [h]
  · simp only [Bool.not_eq_true] at h
    simp [h]

/-- Witness for C1 at concrete inputs: prefix confusion (`/srv/files` root,
request canonicalizing to `/srv/files-evil`) is rejected; a symlink inside
the root pointing outside (modelled by a resolver sending
`/srv/files/link` to `/outside`) is rejected; a request for a (possibly
non-existent) file inside the root is accepted. -/
theorem sanitize_path_containment_witness :
    sanitize_path lexResolve ["srv".data, "files".data] "../files-evil".data
      = .error traversalError
    ∧ sanitize_path
        (fun p => if p = ["srv".data, "files".data, "link".data]
          then ["outside".data] else lexResolve p)
        ["srv".data, "files".data] "link".data = .error traversalError
    ∧ sanitize_path lexResolve ["srv".data, "files".data] "docs/nofile.txt".data
      = .ok ["srv".data, "files".data, "docs".data, "nofile.txt".data] := by
  refine ⟨?_, ?_, by rfl⟩
  · exact (sanitize_path_containment lexResolve ["srv".data, "files".data]
      "../files-evil".data).2.mpr (by decide)
  · exact (sanitize_path_containment
      (fun p => if p = ["srv".data, "files".data, "link".data]
        then ["outside".data] else lexResolve p)
      ["srv".data, "files".data] "link".data).2.mpr (by decide)

/-! Helper lemmas for splitting and joining path strings. -/

theorem splitSlash_ne_nil (s : List Char) : splitSlash s ≠ [] := by
  cases s with
  | nil => simp [splitSlash]
  | cons c cs =>
    simp only [splitSlash]
    cases splitSlash cs with
    | nil => simp
    | cons a t => by_cases hc : c = '/' <;> simp [hc]

theorem splitSlash_no_slash (s : List Char) : ∀ seg ∈ splitSlash s, '/' ∉ seg := by
  induction s with
  | nil =>
    intro seg h
    simp [splitSlash] at h
    simp [h]
  | cons c cs ih =>
    intro seg h
    simp only [splitSlash] at h
    cases hs : splitSlash cs with
    | nil => exact absurd hs (splitSlash_ne_nil cs)
    | cons a t =>
      rw [hs] at h
      by_cases hc : c = '/'
      · simp only [hc, if_pos rfl] at h
        rcases List.mem_cons.mp h with h1 | h1
        · simp [h1]
        · exact ih seg (hs ▸ h1)
      · simp only [if_neg hc] at h
        rcases List.mem_cons.mp h with h1 | h1
        · subst h1
          intro hmem
          rcases List.mem_cons.mp hmem with h2 | h2
          · exact hc h2.symm
          · exact ih a (hs ▸ List.mem_cons_self a t) h2
        · exact ih seg (hs ▸ List.mem_cons_of_mem a h1)

theorem splitSlash_of_no_slash (s : List Char) (h : '/' ∉ s) : splitSlash s = [s] := by
  induction s with
  | nil => rfl
  | cons c cs ih =>
    have hc : c ≠ '/' := fun e => h (e ▸ List.mem_cons_self c cs)
    have h' : '/' ∉ cs := fun hm => h (List.mem_cons_of_mem c hm)
    simp only [splitSlash]
    rw [ih h']
    simp [hc]

theorem splitSlash_append (s r : List Char) (h : '/' ∉ s) :
    splitSlash (s ++ '/' :: r) = s :: splitSlash r := by
  induction s with
  | nil =>
    simp only [List.nil_append, splitSlash]
    cases hs : splitSlash r with
    | nil => exact absurd hs (splitSlash_ne_nil r)
    | cons a t => simp
  | cons c cs ih =>
    have hc : c ≠ '/' := fun e => h (e ▸ List.mem_cons_self c cs)
    have h' : '/' ∉ cs := fun hm => h (List.mem_cons_of_mem c hm)
    simp only [List.cons_append, splitSlash, List.append_eq]
    rw [ih h']
    simp [hc]

theorem parseSegs_joinSegs (segs : List Seg) (h : wfSegs segs) :
    parseSegs (joinSegs segs) = segs := by
  induction segs with
  | nil => rfl
  | cons s rest ih =>
    have hs : wfSeg s := h s (List.mem_cons_self s rest)
    have hrest : wfSegs rest := fun t ht => h t (List.mem_cons_of_mem s ht)
    obtain ⟨hne, hdot, hsl⟩ := hs
    cases rest with
    | nil =>
      show parseSegs s = [s]
      unfold parseSegs
      rw [splitSlash_of_no_slash s hsl]
      simp [hne, hdot]
    | cons s2 rr =>
      show parseSegs (s ++ '/' :: joinSegs (s2 :: rr)) = s :: s2 :: rr
      unfold parseSegs
      rw [splitSlash_append _ _ hsl]
      rw [List.filter_cons]
      have : (!(s == [] || s == ['.'])) = true := by
        simp [hne, hdot]
      rw [if_pos this]
      have := ih hrest
      unfold parseSegs at this
      rw [this]

theorem dropWhile_joinSegs (rel : List Seg) (h : wfSegs rel) :
    (joinSegs rel).dropWhile (· = '/') = joinSegs rel := by
  cases rel with
  | nil => rfl
  | cons s rest =>
    obtain ⟨hne, hdot, hsl⟩ := h s (List.mem_cons_self s rest)
    cases s with
    | nil => exact absurd rfl hne
    | cons c cs =>
      have hc : ¬(c = '/') := fun e => hsl (e ▸ List.mem_cons_self c cs)
      cases rest with
      | nil =>
        show (c :: cs).dropWhile (· = '/') = c :: cs
        simp [List.dropWhile_cons, hc]
      | cons s2 rr =>
        show ((c :: cs) ++ '/' :: joinSegs (s2 :: rr)).dropWhile (· = '/') = _
        simp only [List.cons_append, List.dropWhile_cons]
        rw [if_neg (by simp [hc])]
        rfl

/-! Helper lemmas for `lexResolve`. -/

/-- A segment `lexStep` can append: not `..`, `.` or empty. -/
def plainSeg (s : Seg) : Prop := s ≠ ['.', '.'] ∧ s ≠ ['.'] ∧ s ≠ []

theorem lexFoldl_plain (l : List Seg) : ∀ acc, (∀ s ∈ acc, plainSeg s) →
    ∀ s ∈ l.foldl lexStep acc, plainSeg s := by
  induction l with
  | nil => intro acc hacc; exact hacc
  | cons s l ih =>
    intro acc hacc
    refine ih (lexStep acc s) ?_
    intro t ht
    unfold lexStep at ht
    split at ht
    · exact hacc t (List.dropLast_subset _ ht)
    · split at ht
      · exact hacc t ht
      · rcases List.mem_append.mp ht with h1 | h1
        · exact hacc t h1
        · rename_i h2 h3
          push_neg at h3
          rcases List.mem_singleton.mp h1 with rfl
          exact ⟨h2, h3.1, h3.2⟩

theorem lexFoldl_of_plain (l : List Seg) (h : ∀ s ∈ l, plainSeg s) :
    ∀ acc, l.foldl lexStep acc = acc ++ l := by
  induction l with
  | nil => intro acc; simp
  | cons s l ih =>
    intro acc
    obtain ⟨h1, h2, h3⟩ := h s (List.mem_cons_self s l)
    have hl : ∀ t ∈ l, plainSeg t := fun t ht => h t (List.mem_cons_of_mem s ht)
    show (l.foldl lexStep (lexStep acc s)) = _
    rw [ih hl]
    unfold lexStep
    rw [if_neg h1, if_neg (by tauto)]
    simp

theorem lexResolve_idem (l : List Seg) : lexResolve (lexResolve l) = lexResolve l := by
  have h := lexFoldl_plain l [] (by simp)
  have := lexFoldl_of_plain (lexResolve l) h []
  simpa [lexResolve] using this

theorem lexFoldl_wf (l : List Seg) : ∀ acc, (∀ s ∈ acc, wfSeg s) →
    (∀ s ∈ l, '/' ∉ s) → ∀ s ∈ l.foldl lexStep acc, wfSeg s := by
  induction l with
  | nil => intro acc hacc _; exact hacc
  | cons s l ih =>
    intro acc hacc hsl
    refine ih (lexStep acc s) ?_ (fun t ht => hsl t (List.mem_cons_of_mem s ht))
    intro t ht
    unfold lexStep at ht
    split at ht
    · exact hacc t (List.dropLast_subset _ ht)
    · split at ht
      · exact hacc t ht
      · rcases List.mem_append.mp ht with h1 | h1
        · exact hacc t h1
        · rename_i h2 h3
          push_neg at h3
          rcases List.mem_singleton.mp h1 with rfl
          exact ⟨h3.2, h3.1, hsl t (List.mem_cons_self t l)⟩

theorem lexResolve_wf (l : List Seg) (h : wfSegs l) : wfSegs (lexResolve l) :=
  lexFoldl_wf l [] (by simp) (fun s hs => (h s hs).2.2)

theorem parseSegs_wf (s : List Char) : wfSegs (parseSegs s) := by
  intro seg hseg
  unfold parseSegs at hseg
  have hmem := List.mem_of_mem_filter hseg
  have hfil := List.of_mem_filter hseg
  simp only [Bool.not_eq_true', Bool.or_eq_false_iff, beq_eq_false_iff_ne] at hfil
  exact ⟨hfil.1, hfil.2, splitSlash_no_slash s seg hmem⟩

/-- C9: path resolution is idempotent. For any canonicalization `resolve`
that is itself idempotent and produces well-formed segments (both true of
`Path.resolve()`), a canonical root, and any request accepted by
`sanitize_path`, feeding the accepted path's form relative to the root back
through `sanitize_path` succeeds with the same path. -/
theorem sanitize_path_idempotent (resolve : List Seg → List Seg)
    (hidem : ∀ l, resolve (resolve l) = resolve l)
    (hpres : ∀ l, wfSegs l → wfSegs (resolve l))
    (base : List Seg) (hbase : resolve base = base) (hbw : wfSegs base)
    (requested : List Char) (p : List Seg)
    (h : sanitize_path resolve base requested = .ok p) :
    sanitize_path resolve base (joinSegs (p.drop base.length)) = .ok p := by
  obtain ⟨hp, hpre⟩ := (sanitize_path_containment resolve base requested).1 p h
  rw [hbase] at hpre
  have hwfp : wfSegs p := by
    rw [hp]
    refine hpres _ ?_
    intro s hs
    rcases List.mem_append.mp hs with h1 | h1
    · exact hbw s h1
    · exact parseSegs_wf _ s h1
  have hrel : wfSegs (p.drop base.length) :=
    fun s hs => hwfp s (List.drop_subset _ _ hs)
  obtain ⟨t, ht⟩ := List.isPrefixOf_iff_prefix.mp hpre
  have hdrop : p.drop base.length = t := by
    rw [← ht, List.drop_left]
  have hres : resolve (base ++ t) = p := by
    rw [ht, hp, hidem, ← hp]
  simp only [sanitize_path]
  rw [dropWhile_joinSegs _ hrel, parseSegs_joinSegs _ hrel, hdrop, hres, hbase,
    if_pos hpre]

/-- Witness for C9: with the symlink-free canonicalization, root
`/srv/files` and request `docs/../notes/x.txt` (accepted as
`/srv/files/notes/x.txt`), re-resolving the accepted path's root-relative
form `notes/x.txt` yields the same path. -/
theorem sanitize_path_idempotent_witness :
    sanitize_path lexResolve ["srv".data, "files".data]
      (joinSegs ((["srv".data, "files".data, "notes".data, "x.txt".data]).drop
        (["srv".data, "files".data] : List Seg).length)) =
      .ok ["srv".data, "files".data, "notes".data, "x.txt".data] :=
  sanitize_path_idempotent lexResolve lexResolve_idem lexResolve_wf
    ["srv".data, "files".data] (by rfl) (by decide)
    "docs/../notes/x.txt".data _ (by rfl)

/-! ## Authentication (security.py lines 21-52, 148-173; main.py lines 84-92) -/

/-- UTF-8 encoding of a Unicode code point, arithmetic form
(the semantics of Python `str.encode("utf-8")` per code point). -/
def utf8EncodeCp (n : Nat) : List Nat :=
  if n < 0x80 then [n]
  else if n < 0x800 then [0xC0 + n / 64, 0x80 + n % 64]
  else if n < 0x10000 then [0xE0 + n / 4096, 0x80 + n / 64 % 64, 0x80 + n % 64]
  else [0xF0 + n / 262144, 0x80 + n / 4096 % 64, 0x80 + n / 64 % 64, 0x80 + n % 64]

/-- Byte sequence of a string under UTF-8: model of `s.encode("utf-8")`. -/
def encodeStr (s : String) : List Nat :=
  s.data.foldr (fun c acc => utf8EncodeCp c.toNat ++ acc) []

/-- The accumulation step of CPython's `_tscmp`: OR the running difference
with the XOR of the byte pair. -/
def orXorStep (r : Nat) (p : Nat × Nat) : Nat := r ||| (p.1 ^^^ p.2)

/-- Model of `secrets.compare_digest` (CPython `_tscmp`): always scan exactly
`len(b)` byte pairs, accumulating differences with OR/XOR and never
short-circuiting; when the lengths differ `b` is scanned against itself with
the result forced unequal. Returns the boolean outcome paired with the number
of byte-comparison steps performed. -/
def compare_digest_run (a b : List Nat) : Bool × Nat :=
  let left := if a.length == b.length then a else b
  let start : Nat := if a.length == b.length then 0 else 1
  (((left.zip b).foldl orXorStep start) == 0, b.length)

/-- The boolean outcome of `secrets.compare_digest`. -/
def compare_digest (a b : List Nat) : Bool := (compare_digest_run a b).1

/-- Model of `AuthManager` (security.py lines 21-27): the two stored optional
credential strings and the `enabled` flag computed by `__init__`. -/
structure AuthManager where
  username : Option String
  password : Option String
  enabled : Bool
deriving DecidableEq, Repr

/-- Embedding of `AuthManager.__init__`: store the pair as given and derive
`enabled = (username is not None and password is not None)`. -/
def AuthManager.init (username password : Option String) : AuthManager :=
  ⟨username, password, username.isSome && password.isSome⟩

/-- Model of `fastapi.security.HTTPBasicCredentials`: the supplied pair. -/
structure HTTPBasicCredentials where
  username : String
  password : String
deriving DecidableEq, Repr

/-- The 401 challenge raised by `verify_credentials` on failure
(security.py lines 47-51). -/
def authChallenge : HTTPError :=
  ⟨401, "Invalid credentials", [("WWW-Authenticate", "Basic")]⟩

/-- Embedding of `AuthManager.verify_credentials` (security.py lines 29-52):
when disabled accept; otherwise compare the UTF-8 encodings of the supplied
and stored username and of the supplied and stored password with
`compare_digest` (both comparisons always run), and raise the 401
Basic-challenge error unless both match. In every constructed manager
`enabled` implies both stored fields are present, so `Option.getD ""`
is never hit on `none`. -/
def AuthManager.verify_credentials (m : AuthManager) (c : HTTPBasicCredentials) :
    Except HTTPError Bool :=
  if !m.enabled then .ok true
  else
    let username_correct :=
      compare_digest (encodeStr c.username) (encodeStr (m.username.getD ""))
    let password_correct :=
      compare_digest (encodeStr c.password) (encodeStr (m.password.getD ""))
    if !(username_correct && password_correct) then .error authChallenge
    else .ok true

/-- The number of byte-comparison steps `verify_credentials` performs,
instrumenting the two `compare_digest` calls. -/
def AuthManager.verify_steps (m : AuthManager) (c : HTTPBasicCredentials) : Nat :=
  if !m.enabled then 0
  else (compare_digest_run (encodeStr c.username) (encodeStr (m.username.getD ""))).2
    + (compare_digest_run (encodeStr c.password) (encodeStr (m.password.getD ""))).2

/-- Embedding of `parse_auth_string` (security.py lines 148-173):
`auth_string.split(":", 1)`, then reject when there is no colon or either
part is empty. `splitFirstColon` returns the pieces around the first colon. -/
def splitFirstColon : List Char → Option (List Char × List Char)
  | [] => none
  | c :: cs =>
    if c = ':' then some ([], cs)
    else (splitFirstColon cs).map (fun p => (c :: p.1, p.2))

def parse_auth_string (s : String) : Except String (String × String) :=
  match splitFirstColon s.data with
  | none => .error "Invalid auth format. Use 'username:password'"
  | some (u, p) =>
    if u.isEmpty || p.isEmpty then .error "Username and password cannot be empty"
    else .ok (⟨u⟩, ⟨p⟩)

/-- The gate construction performed by the program entry point
(main.py lines 84-92 feeding server.py line 37): with no `--auth` both
credentials are `None`; with `--auth` the string is parsed (a parse failure
exits before any gate is constructed) and both parts are stored. -/
def serve_auth_manager (auth : Option String) : Except String AuthManager :=
  match auth with
  | none => .ok (AuthManager.init none none)
  | some s =>
    match parse_auth_string s with
    | .error e => .error e
    | .ok (u, p) => .ok (AuthManager.init (some u) (some p))

/-! Helper lemmas for `compare_digest` and UTF-8 encoding. -/

theorem natOr_eq_zero (m n : Nat) : m ||| n = 0 ↔ m = 0 ∧ n = 0 := by
  constructor
  · intro h
    have hb : ∀ i, Nat.testBit m i = false ∧ Nat.testBit n i = false := by
      intro i
      have h2 := congrArg (fun x => Nat.testBit x i) h
      simp [Nat.testBit_or] at h2
      exact h2
    refine ⟨Nat.eq_of_testBit_eq ?_, Nat.eq_of_testBit_eq ?_⟩
    · intro i; simp [(hb i).1]
    · intro i; simp [(hb i).2]
  · rintro ⟨rfl, rfl⟩; rfl

theorem orXor_foldl_start (l : List (Nat × Nat)) (i : Nat) :
    l.foldl orXorStep i = i ||| l.foldl orXorStep 0 := by
  induction l generalizing i with
  | nil => simp
  | cons p l ih =>
    show l.foldl orXorStep (orXorStep i p) = i ||| l.foldl orXorStep (orXorStep 0 p)
    rw [ih (orXorStep i p), ih (orXorStep 0 p)]
    unfold orXorStep
    simp [Nat.or_assoc]

theorem orXor_zip_eq_zero (a : List Nat) : ∀ b : List Nat, a.length = b.length →
    (((a.zip b).foldl orXorStep 0 = 0) ↔ a = b) := by
  induction a with
  | nil =>
    intro b h
    cases b with
    | nil => simp
    | cons y ys => simp at h
  | cons x xs ih =>
    intro b h
    cases b with
    | nil => simp at h
    | cons y ys =>
      have hlen : xs.length = ys.length := by simpa using h
      show ((xs.zip ys).foldl orXorStep (orXorStep 0 (x, y)) = 0) ↔ _
      rw [orXor_foldl_start]
      have hstep : orXorStep 0 (x, y) = x ^^^ y := by simp [orXorStep]
      rw [hstep, natOr_eq_zero, Nat.xor_eq_zero, ih ys hlen]
      simp

theorem compare_digest_eq (a b : List Nat) : compare_digest a b = true ↔ a = b := by
  unfold compare_digest compare_digest_run
  by_cases h : a.length = b.length
  · simp only [h, beq_self_eq_true, if_pos]
    rw [beq_iff_eq]
    exact orXor_zip_eq_zero a b h
  · have hne : (a.length == b.length) = false := by simpa using h
    simp only [hne, Bool.false_eq_true, if_false]
    rw [orXor_foldl_start]
    constructor
    · intro hx
      rw [beq_iff_eq, natOr_eq_zero] at hx
      exact absurd hx.1 one_ne_zero
    · intro hx
      exact absurd (congrArg List.length hx) h

theorem utf8EncodeCp_append_inj {a b : Nat} {x y : List Nat}
    (h : utf8EncodeCp a ++ x = utf8EncodeCp b ++ y) : a = b ∧ x = y := by
  unfold utf8EncodeCp at h
  split_ifs at h <;>
    simp only [List.cons_append, List.nil_append, List.cons.injEq] at h <;>
    first
      | (refine ⟨by omega, ?_⟩; tauto)
      | (exfalso; omega)

theorem encodeChars_inj : ∀ s t : List Char,
    s.foldr (fun c acc => utf8EncodeCp c.toNat ++ acc) [] =
      t.foldr (fun c acc => utf8EncodeCp c.toNat ++ acc) [] → s = t := by
  intro s
  induction s with
  | nil =>
    intro t h
    cases t with
    | nil => rfl
    | cons d ds =>
      exfalso
      simp only [List.foldr] at h
      rcases List.append_eq_nil.mp h.symm with ⟨h1, -⟩
      revert h1
      unfold utf8EncodeCp
      split_ifs <;> simp
  | cons c cs ih =>
    intro t h
    cases t with
    | nil =>
      exfalso
      simp only [List.foldr] at h
      rcases List.append_eq_nil.mp h with ⟨h1, -⟩
      revert h1
      unfold utf8EncodeCp
      split_ifs <;> simp
    | cons d ds =>
      simp only [List.foldr] at h
      obtain ⟨h1, h2⟩ := utf8EncodeCp_append_inj h
      have hc : c = d := Char.eq_of_val_eq (by exact UInt32.toNat.inj h1)
      rw [hc, ih ds h2]

theorem encodeStr_inj {s t : String} (h : encodeStr s = encodeStr t) : s = t := by
  have hd := encodeChars_inj s.data t.data h
  cases s
  cases t
  simp_all

theorem compare_digest_encode (a b : String) :
    compare_digest (encodeStr a) (encodeStr b) = true ↔ a = b :=
  ⟨fun h => encodeStr_inj ((compare_digest_eq _ _).mp h),
   fun h => (compare_digest_eq _ _).mpr (by rw [h])⟩

/-- C4: every credential gate the program constructs satisfies the invariant:
`enabled` is exactly the presence-derived boolean for every constructed gate,
and along the program's construction path (CLI `--auth` parsing feeding the
server constructor) the stored pair always has both components present or
both absent — no reachable gate has exactly one configured. -/
theorem auth_manager_invariant :
    (∀ u p : Option String, (AuthManager.init u p).enabled = (u.isSome && p.isSome))
    ∧ ∀ auth m, serve_auth_manager auth = .ok m →
        ((m.username.isSome ↔ m.password.isSome)
          ∧ m.enabled = (m.username.isSome && m.password.isSome)) := by
  refine ⟨fun u p => rfl, ?_⟩
  intro auth m h
  cases auth with
  | none =>
    have hm : m = AuthManager.init none none := by
      simpa [serve_auth_manager] using h.symm
    subst hm
    simp [AuthManager.init]
  | some s =>
    simp only [serve_auth_manager] at h
    cases hp : parse_auth_string s with
    | error e =>
      rw [hp] at h
      cases h
    | ok up =>
      obtain ⟨u, p⟩ := up
      rw [hp] at h
      simp only [Except.ok.injEq] at h
      subst h
      simp [AuthManager.init]

/-- Witness for C4 with the concrete CLI argument `admin:hunter2`. -/
theorem auth_manager_invariant_witness :
    ((AuthManager.init (some "admin") (some "hunter2")).username.isSome ↔
      (AuthManager.init (some "admin") (some "hunter2")).password.isSome)
    ∧ (AuthManager.init (some "admin") (some "hunter2")).enabled =
        ((AuthManager.init (some "admin") (some "hunter2")).username.isSome &&
          (AuthManager.init (some "admin") (some "hunter2")).password.isSome) :=
  auth_manager_invariant.2 (some "admin:hunter2")
    (AuthManager.init (some "admin") (some "hunter2")) (by rfl)

/-- C5: with configured credentials, verification returns success exactly when
both the supplied username equals the stored username and the supplied
password equals the stored password; any partial match (or full mismatch)
raises the 401 authentication challenge carrying the
`WWW-Authenticate: Basic` header — never a degraded acceptance. -/
theorem verify_credentials_exact (su sp : String) (c : HTTPBasicCredentials) :
    ((AuthManager.init (some su) (some sp)).verify_credentials c = .ok true ↔
      (c.username = su ∧ c.password = sp))
    ∧ (¬(c.username = su ∧ c.password = sp) →
      (AuthManager.init (some su) (some sp)).verify_credentials c =
        .error authChallenge)
    ∧ authChallenge.status = 401
    ∧ authChallenge.headers = [("WWW-Authenticate", "Basic")] := by
  have hu := compare_digest_encode c.username su
  have hp := compare_digest_encode c.password sp
  have key : (AuthManager.init (some su) (some sp)).verify_credentials c =
      if c.username = su ∧ c.password = sp then .ok true
      else .error authChallenge := by
    simp only [AuthManager.verify_credentials, AuthManager.init, Option.isSome_some,
      Bool.and_self, Bool.not_true, Bool.false_eq_true, if_false, Option.getD_some]
    by_cases h1 : c.username = su <;> by_cases h2 : c.password = sp
    · have hcu := hu.mpr h1
      have hcp := hp.mpr h2
      rw [h1] at hcu
      rw [h2] at hcp
      simp [hcu, hcp, h1, h2]
    · have hf : compare_digest (encodeStr c.password) (encodeStr sp) = false := by
        rw [Bool.eq_false_iff]
        exact fun hx => h2 (hp.mp hx)
      simp [hf, h1, h2]
    · have hf : compare_digest (encodeStr c.username) (encodeStr su) = false := by
        rw [Bool.eq_false_iff]
        exact fun hx => h1 (hu.mp hx)
      simp [hf, h1, h2]
    · have hf : compare_digest (encodeStr c.username) (encodeStr su) = false := by
        rw [Bool.eq_false_iff]
        exact fun hx => h1 (hu.mp hx)
      simp [hf, h1, h2]
  refine ⟨?_, ?_, rfl, rfl⟩
  · rw [key]
    by_cases h : c.username = su ∧ c.password = sp <;> simp [h]
  · intro h
    rw [key, if_neg h]

/-- Witness for C5: correct username with a wrong password is rejected with
the 401 Basic challenge. -/
theorem verify_credentials_exact_witness :
    ¬(("admin" : String) = "admin" ∧ ("wrong" : String) = "hunter2")
    ∧ (AuthManager.init (some "admin") (some "hunter2")).verify_credentials
        ⟨"admin", "wrong"⟩ = .error authChallenge := by
  have hne : ¬(("admin" : String) = "admin" ∧ ("wrong" : String) = "hunter2") := by
    intro hx
    exact absurd hx.2 (by decide)
  exact ⟨hne, (verify_credentials_exact "admin" "hunter2" ⟨"admin", "wrong"⟩).2.1 hne⟩

/-- C6: with no configured credentials the gate reports `enabled = false`,
and verification accepts every supplied credential pair (including the empty
one) without ever raising. -/
theorem verify_credentials_disabled :
    (AuthManager.init none none).enabled = false
    ∧ (∀ c : HTTPBasicCredentials,
        (AuthManager.init none none).verify_credentials c = .ok true)
    ∧ (AuthManager.init none none).verify_credentials ⟨"", ""⟩ = .ok true :=
  ⟨rfl, fun _ => rfl, rfl⟩

/-- C8: the credential comparison is constant-time in the modelled cost
measure: `compare_digest` always performs exactly `b.length` byte-comparison
steps (it scans the whole stored value, never short-circuiting at the first
mismatch), so the step count of `verify_credentials` is determined by the
stored credentials alone — identical for any two supplied credential pairs,
whatever the position of the first mismatching byte. -/
theorem verify_credentials_constant_time :
    (∀ a b : List Nat, (compare_digest_run a b).2 = b.length)
    ∧ (∀ su sp : String, ∀ c c' : HTTPBasicCredentials,
        (AuthManager.init (some su) (some sp)).verify_steps c =
          (AuthManager.init (some su) (some sp)).verify_steps c'
        ∧ (AuthManager.init (some su) (some sp)).verify_steps c =
            (encodeStr su).length + (encodeStr sp).length) :=
  ⟨fun _ _ => rfl, fun _ _ _ _ => ⟨rfl, rfl⟩⟩

/-! ## Upload handling (server.py lines 188-240) -/

/-- Model of `pathlib.Path(filename).name`: the final path component.
`pathlib` drops empty and `.` components when parsing and keeps `..`
(which the upload loop then rejects as a leading-dot name). -/
def pathName (filename : String) : String :=
  match (parseSegs filename.data).getLast? with
  | some seg => ⟨seg⟩
  | none => ""

/-- Model of Python `s.startswith('.')`: the first character is a dot. -/
def startsWithDot (s : String) : Bool :=
  match s.data with
  | [] => false
  | c :: _ => c = '.'

/-- An uploaded file as seen by the upload loop: the client-proposed
filename, the successive chunks produced by `file.read(1024 * 1024)`, and an
optional injected I/O failure — `some (k, msg)` makes writing the k-th chunk
raise an exception with text `msg`, modelling a disk-full, permission or I/O
error mid-stream. -/
structure UploadFile where
  filename : String
  chunks : List (List Nat)
  failAt : Option (Nat × String)
deriving DecidableEq, Repr

/-- Filesystem contents: an association of paths (segment lists) to file
contents (byte lists). -/
abbrev FS := List (List String × List Nat)

def fsGet (fs : FS) (p : List String) : Option (List Nat) :=
  (fs.find? (fun e => e.1 == p)).map (fun e => e.2)

def fsSet (fs : FS) (p : List String) (content : List Nat) : FS :=
  (p, content) :: fs.filter (fun e => !(e.1 == p))

/-- Stream chunks to an open file: the bytes that reach the disk and the
error message if an exception interrupted the write (a partial prefix stays
on disk — `open(..., "wb")` has already truncated the file). -/
def writeChunks : List (List Nat) → Option (Nat × String) → List Nat × Option String
  | _, some (0, msg) => ([], some msg)
  | [], _ => ([], none)
  | ch :: rest, none =>
    let r := writeChunks rest none
    (ch ++ r.1, r.2)
  | ch :: rest, some (k + 1, msg) =>
    let r := writeChunks rest (some (k, msg))
    (ch ++ r.1, r.2)

/-- The structured result of a batch upload (server.py lines 235-240). -/
structure UploadOutcome where
  uploaded : List (String × Nat)
  errors : List (String × String)
  success : Nat
  failed : Nat
deriving DecidableEq, Repr

/-- The per-file loop of `SkyhookServer.upload_files` (server.py lines
203-233) as structural recursion on the file list: take the final
path-segment of the proposed filename, reject empty or leading-dot names,
open `target_dir / safe_filename` for writing (truncating any existing
file), stream the chunks, and record either a `(safe_filename, size)`
success entry or an `(original filename, error text)` error entry — always
continuing with the remaining files. -/
def uploadLoop (targetDir : List String) (fs : FS) :
    List UploadFile → List (String × Nat) × List (String × String) × FS
  | [] => ([], [], fs)
  | f :: rest =>
    let safe := pathName f.filename
    if safe = "" ∨ startsWithDot safe then
      let r := uploadLoop targetDir fs rest
      (r.1, (f.filename, "Invalid filename") :: r.2.1, r.2.2)
    else
      let w := writeChunks f.chunks f.failAt
      let fs1 := fsSet fs (targetDir ++ [safe]) w.1
      match w.2 with
      | none =>
        let r := uploadLoop targetDir fs1 rest
        ((safe, w.1.length) :: r.1, r.2.1, r.2.2)
      | some e =>
        let r := uploadLoop targetDir fs1 rest
        (r.1, (f.filename, e) :: r.2.1, r.2.2)

/-- Embedding of `SkyhookServer.upload_files` after target-directory resolution
(server.py lines 203-240): run the loop, then report the success list, the
error list, and their counts. -/
def upload_files (fs : FS) (targetDir : List String) (files : List UploadFile) :
    UploadOutcome × FS :=
  let r := uploadLoop targetDir fs files
  (⟨r.1, r.2.1, r.1.length, r.2.1.length⟩, r.2.2)

/-- The outcome a single file contributes, independent of the filesystem:
`inl (safe_filename, size)` on success, `inr (filename, error)` on
rejection or write failure. -/
def fileOutcome (f : UploadFile) : (String × Nat) ⊕ (String × String) :=
  let safe := pathName f.filename
  if safe = "" ∨ startsWithDot safe then .inr (f.filename, "Invalid filename")
  else
    match writeChunks f.chunks f.failAt with
    | (content, none) => .inl (safe, content.length)
    | (_, some e) => .inr (f.filename, e)

/-! Helper lemmas for the upload model. -/

theorem find?_filter_ne (fs : FS) (p q : List String) (h : q ≠ p) :
    (fs.filter (fun e => !(e.1 == p))).find? (fun e => e.1 == q) =
      fs.find? (fun e => e.1 == q) := by
  induction fs with
  | nil => rfl
  | cons e fs ih =>
    by_cases he : e.1 = q
    · have hq : (e.1 == q) = true := by simpa using he
      have hp : (e.1 == p) = false := beq_eq_false_iff_ne.mpr (he ▸ h)
      simp [List.filter_cons, List.find?_cons, hp, hq]
    · have hq : (e.1 == q) = false := beq_eq_false_iff_ne.mpr he
      by_cases hep : e.1 = p
      · have hp : (e.1 == p) = true := by simpa using hep
        simp [List.filter_cons, List.find?_cons, hp, hq, ih]
      · have hp : (e.1 == p) = false := beq_eq_false_iff_ne.mpr hep
        simp [List.filter_cons, List.find?_cons, hp, hq, ih]

theorem fsGet_fsSet (fs : FS) (p q : List String) (c : List Nat) :
    fsGet (fsSet fs p c) q = if q = p then some c else fsGet fs q := by
  unfold fsGet fsSet
  by_cases h : q = p
  · subst h
    simp [List.find?_cons]
  · have hpq : (p == q) = false := beq_eq_false_iff_ne.mpr (Ne.symm h)
    simp [List.find?_cons, hpq, h, find?_filter_ne fs p q h]

theorem writeChunks_none (chunks : List (List Nat)) :
    writeChunks chunks none = (chunks.flatten, none) := by
  induction chunks with
  | nil => rfl
  | cons c cs ih => simp [writeChunks, ih]

theorem pathName_no_slash (s : String) : '/' ∉ (pathName s).data := by
  unfold pathName
  cases h : (parseSegs s.data).getLast? with
  | none => simp
  | some seg =>
    have hx : seg ∈ (parseSegs s.data).getLast? := by
      rw [h]
      rfl
    obtain ⟨hne, heq⟩ := List.mem_getLast?_eq_getLast hx
    have hm : seg ∈ parseSegs s.data := heq ▸ List.getLast_mem hne
    exact (parseSegs_wf s.data seg hm).2.2

theorem sum_getters_length (l : List ((String × Nat) ⊕ (String × String))) :
    (l.filterMap Sum.getLeft?).length + (l.filterMap Sum.getRight?).length
      = l.length := by
  induction l with
  | nil => rfl
  | cons x l ih =>
    cases x <;> simp [List.filterMap_cons, Sum.getLeft?, Sum.getRight?] <;> omega

/-- Each file contributes exactly one entry, so the two filterMap
projections of `fileOutcome` have lengths summing to the batch size. -/
theorem fileOutcome_lengths (files : List UploadFile) :
    (files.filterMap (fun f => (fileOutcome f).getLeft?)).length
      + (files.filterMap (fun f => (fileOutcome f).getRight?)).length
      = files.length := by
  have h1 : files.filterMap (fun f => (fileOutcome f).getLeft?)
      = (files.map fileOutcome).filterMap Sum.getLeft? := by
    rw [List.filterMap_map]
    rfl
  have h2 : files.filterMap (fun f => (fileOutcome f).getRight?)
      = (files.map fileOutcome).filterMap Sum.getRight? := by
    rw [List.filterMap_map]
    rfl
  rw [h1, h2, ← List.length_map files fileOutcome]
  exact sum_getters_length _

/-- The upload loop's success and error lists are the per-file outcomes in
order, independently of filesystem state: no file's failure affects any
other file's processing. -/
theorem uploadLoop_spec (dir : List String) :
    ∀ (files : List UploadFile) (fs : FS),
      (uploadLoop dir fs files).1 =
          files.filterMap (fun f => (fileOutcome f).getLeft?)
      ∧ (uploadLoop dir fs files).2.1 =
          files.filterMap (fun f => (fileOutcome f).getRight?) := by
  intro files
  induction files with
  | nil => intro fs; exact ⟨rfl, rfl⟩
  | cons f rest ih =>
    intro fs
    by_cases hv : pathName f.filename = "" ∨ startsWithDot (pathName f.filename)
    · have hout : fileOutcome f = .inr (f.filename, "Invalid filename") := by
        unfold fileOutcome
        rw [if_pos hv]
      simp only [uploadLoop, if_pos hv]
      rcases ih fs with ⟨h1, h2⟩
      simp [h1, h2, List.filterMap_cons, hout, Sum.getLeft?, Sum.getRight?]
    · cases hw : writeChunks f.chunks f.failAt with
      | mk content err =>
        cases err with
        | none =>
          have hout : fileOutcome f = .inl (pathName f.filename, content.length) := by
            unfold fileOutcome
            rw [if_neg hv, hw]
          simp only [uploadLoop, if_neg hv, hw]
          rcases ih (fsSet fs (dir ++ [pathName f.filename]) content) with ⟨h1, h2⟩
          simp [h1, h2, List.filterMap_cons, hout, Sum.getLeft?, Sum.getRight?]
        | some e =>
          have hout : fileOutcome f = .inr (f.filename, e) := by
            unfold fileOutcome
            rw [if_neg hv, hw]
          simp only [uploadLoop, if_neg hv, hw]
          rcases ih (fsSet fs (dir ++ [pathName f.filename]) content) with ⟨h1, h2⟩
          simp [h1, h2, List.filterMap_cons, hout, Sum.getLeft?, Sum.getRight?]

/-- C7: one file's failure never aborts the batch: each file contributes
exactly one entry — a `(filename, size-written)` success entry or a
`(filename, error-text)` error entry — independent of the other files'
outcomes and of filesystem state; the final result carries both lists, the
reported counts are exactly their lengths and sum to the batch size, and
every failing file's entry appears in the error list. -/
theorem upload_files_partial_failure (fs : FS) (dir : List String)
    (files : List UploadFile) :
    (upload_files fs dir files).1.uploaded =
        files.filterMap (fun f => (fileOutcome f).getLeft?)
    ∧ (upload_files fs dir files).1.errors =
        files.filterMap (fun f => (fileOutcome f).getRight?)
    ∧ (upload_files fs dir files).1.success =
        (upload_files fs dir files).1.uploaded.length
    ∧ (upload_files fs dir files).1.failed =
        (upload_files fs dir files).1.errors.length
    ∧ (upload_files fs dir files).1.uploaded.length
        + (upload_files fs dir files).1.errors.length = files.length
    ∧ ∀ f ∈ files, ∀ e, fileOutcome f = .inr e →
        e ∈ (upload_files fs dir files).1.errors := by
  obtain ⟨h1, h2⟩ := uploadLoop_spec dir files fs
  refine ⟨h1, h2, rfl, rfl, ?_, ?_⟩
  · show (uploadLoop dir fs files).1.length + (uploadLoop dir fs files).2.1.length
      = files.length
    rw [h1, h2]
    exact fileOutcome_lengths files
  · intro f hf e he
    show e ∈ (uploadLoop dir fs files).2.1
    rw [h2]
    refine List.mem_filterMap.mpr ⟨f, hf, ?_⟩
    rw [he]
    rfl

/-- Witness for C7: a 3-file batch whose 2nd file fails mid-write (injected
disk error) still yields results for files 1 and 3, with success=2,
failed=1, and the failure recorded with its filename and error text. -/
theorem upload_files_partial_failure_witness :
    (upload_files [] ["srv"]
      [⟨"a.txt", [[1, 2]], none⟩,
       ⟨"b.txt", [[3], [4]], some (1, "disk full")⟩,
       ⟨"c.txt", [[5]], none⟩]).1.uploaded = [("a.txt", 2), ("c.txt", 1)]
    ∧ (upload_files [] ["srv"]
      [⟨"a.txt", [[1, 2]], none⟩,
       ⟨"b.txt", [[3], [4]], some (1, "disk full")⟩,
       ⟨"c.txt", [[5]], none⟩]).1.errors = [("b.txt", "disk full")]
    ∧ (upload_files [] ["srv"]
      [⟨"a.txt", [[1, 2]], none⟩,
       ⟨"b.txt", [[3], [4]], some (1, "disk full")⟩,
       ⟨"c.txt", [[5]], none⟩]).1.success = 2
    ∧ (upload_files [] ["srv"]
      [⟨"a.txt", [[1, 2]], none⟩,
       ⟨"b.txt", [[3], [4]], some (1, "disk full")⟩,
       ⟨"c.txt", [[5]], none⟩]).1.failed = 1
    ∧ ("b.txt", "disk full") ∈ (upload_files [] ["srv"]
      [⟨"a.txt", [[1, 2]], none⟩,
       ⟨"b.txt", [[3], [4]], some (1, "disk full")⟩,
       ⟨"c.txt", [[5]], none⟩]).1.errors := by
  refine ⟨by rfl, by rfl, by rfl, by rfl, ?_⟩
  exact (upload_files_partial_failure [] ["srv"]
      [⟨"a.txt", [[1, 2]], none⟩,
       ⟨"b.txt", [[3], [4]], some (1, "disk full")⟩,
       ⟨"c.txt", [[5]], none⟩]).2.2.2.2.2
    ⟨"b.txt", [[3], [4]], some (1, "disk full")⟩ (by simp)
    ("b.txt", "disk full") (by rfl)

/-- C2: the upload writer touches the filesystem only at paths consisting of
the already-resolved target directory extended by exactly one segment — the
final path component of some uploaded file's proposed filename, which is
nonempty, free of path separators and not dot-leading — so a file whose
proposed name contains directory components (such as `../../etc/passwd`) is
written only to a file of that final name directly inside the target
directory and never to any location outside it. -/
theorem upload_files_writes_inside (dir : List String) :
    ∀ (files : List UploadFile) (fs : FS) (q : List String),
      fsGet (upload_files fs dir files).2 q ≠ fsGet fs q →
      ∃ f ∈ files, q = dir ++ [pathName f.filename]
        ∧ pathName f.filename ≠ ""
        ∧ ¬startsWithDot (pathName f.filename)
        ∧ '/' ∉ (pathName f.filename).data := by
  intro files
  induction files with
  | nil =>
    intro fs q h
    exact absurd rfl h
  | cons f rest ih =>
    intro fs q h
    by_cases hv : pathName f.filename = "" ∨ startsWithDot (pathName f.filename)
    · simp only [upload_files, uploadLoop, if_pos hv] at h
      obtain ⟨f', hf', hrest⟩ := ih fs q h
      exact ⟨f', List.mem_cons_of_mem f hf', hrest⟩
    · cases hw : writeChunks f.chunks f.failAt with
      | mk content err =>
        cases err with
        | none =>
          simp only [upload_files, uploadLoop, if_neg hv, hw] at h
          by_cases h2 :
              fsGet (uploadLoop dir
                  (fsSet fs (dir ++ [pathName f.filename]) content) rest).2.2 q
                = fsGet (fsSet fs (dir ++ [pathName f.filename]) content) q
          · rw [h2, fsGet_fsSet] at h
            by_cases hq : q = dir ++ [pathName f.filename]
            · push_neg at hv
              exact ⟨f, List.mem_cons_self f rest, hq, hv.1, hv.2,
                pathName_no_slash f.filename⟩
            · rw [if_neg hq] at h
              exact absurd rfl h
          · obtain ⟨f', hf', hrest⟩ := ih _ q h2
            exact ⟨f', List.mem_cons_of_mem f hf', hrest⟩
        | some e =>
          simp only [upload_files, uploadLoop, if_neg hv, hw] at h
          by_cases h2 :
              fsGet (uploadLoop dir
                  (fsSet fs (dir ++ [pathName f.filename]) content) rest).2.2 q
                = fsGet (fsSet fs (dir ++ [pathName f.filename]) content) q
          · rw [h2, fsGet_fsSet] at h
            by_cases hq : q = dir ++ [pathName f.filename]
            · push_neg at hv
              exact ⟨f, List.mem_cons_self f rest, hq, hv.1, hv.2,
                pathName_no_slash f.filename⟩
            · rw [if_neg hq] at h
              exact absurd rfl h
          · obtain ⟨f', hf', hrest⟩ := ih _ q h2
            exact ⟨f', List.mem_cons_of_mem f hf', hrest⟩

/-- Witness for C2: the filename `../../etc/passwd` is reduced to its final
segment `passwd`, and the only filesystem location the upload touches is
`targetDir/passwd` inside the target directory. -/
theorem upload_files_writes_inside_witness :
    pathName "../../etc/passwd" = "passwd"
    ∧ ∃ f ∈ [(⟨"../../etc/passwd", [[7]], none⟩ : UploadFile)],
        ["srv", "files", "passwd"] = ["srv", "files"] ++ [pathName f.filename]
        ∧ pathName f.filename ≠ ""
        ∧ ¬startsWithDot (pathName f.filename)
        ∧ '/' ∉ (pathName f.filename).data := by
  refine ⟨by rfl, ?_⟩
  exact upload_files_writes_inside ["srv", "files"]
    [⟨"../../etc/passwd", [[7]], none⟩] [] ["srv", "files", "passwd"] (by decide)

/-- C10: uploading a file whose sanitized filename already names an existing
file in the target directory truncates and overwrites that file's content
with the new byte stream, reports it as a success entry (with the new size),
records no error, and chooses no alternative name — every other path is left
untouched. -/
theorem upload_overwrite_existing (fs : FS) (dir : List String) (f : UploadFile)
    (old : List Nat)
    (hname : pathName f.filename ≠ "" ∧ ¬startsWithDot (pathName f.filename))
    (hok : f.failAt = none)
    (hold : fsGet fs (dir ++ [pathName f.filename]) = some old) :
    (upload_files fs dir [f]).1.uploaded =
        [(pathName f.filename, f.chunks.flatten.length)]
    ∧ (upload_files fs dir [f]).1.errors = []
    ∧ fsGet (upload_files fs dir [f]).2 (dir ++ [pathName f.filename]) =
        some f.chunks.flatten
    ∧ ∀ q, q ≠ dir ++ [pathName f.filename] →
        fsGet (upload_files fs dir [f]).2 q = fsGet fs q := by
  have hv : ¬(pathName f.filename = "" ∨ startsWithDot (pathName f.filename)) := by
    push_neg
    exact hname
  simp only [upload_files, uploadLoop, if_neg hv, hok, writeChunks_none]
  refine ⟨trivial, trivial, ?_, ?_⟩
  · rw [fsGet_fsSet, if_pos rfl]
  · intro q hq
    rw [fsGet_fsSet, if_neg hq]

/-- Witness for C10: uploading `x.txt` (bytes `[1, 2]`) over an existing
`d/x.txt` with content `[9, 9]` overwrites it and reports success. -/
theorem upload_overwrite_existing_witness :
    fsGet [(["d", "x.txt"], [9, 9])] (["d"] ++ [pathName "x.txt"]) = some [9, 9]
    ∧ (upload_files [(["d", "x.txt"], [9, 9])] ["d"]
        [⟨"x.txt", [[1], [2]], none⟩]).1.uploaded = [("x.txt", 2)]
    ∧ (upload_files [(["d", "x.txt"], [9, 9])] ["d"]
        [⟨"x.txt", [[1], [2]], none⟩]).1.errors = []
    ∧ fsGet (upload_files [(["d", "x.txt"], [9, 9])] ["d"]
        [⟨"x.txt", [[1], [2]], none⟩]).2 (["d"] ++ [pathName "x.txt"]) =
          some [1, 2] := by
  have h := upload_overwrite_existing [(["d", "x.txt"], [9, 9])] ["d"]
    ⟨"x.txt", [[1], [2]], none⟩ [9, 9] (by decide) rfl (by rfl)
  exact ⟨by rfl, h.1, h.2.1, h.2.2.1⟩

/-! ## Self-signed certificate generation (security.py lines 87-145) -/

/-- The observable outcome of `generate_self_signed_cert()`: the temporary
files it writes (path, contents) and its return value. -/
structure CertGenResult where
  filesWritten : List (String × List Nat)
  ret : String × String
deriving DecidableEq, Repr

/-- Embedding of `generate_self_signed_cert` (security.py lines 87-145).
The cryptographic construction (2048-bit RSA key generation, self-signed
X.509 certificate building and SHA-256 signing) is opaque here: `certPem`
and `keyPem` stand for `cert.public_bytes(PEM)` and the unencrypted
`private_key.private_bytes(PEM, TraditionalOpenSSL, NoEncryption)`, and
`certPath`/`keyPath` for the fresh names produced by `tempfile.mkstemp`.
The function writes both PEM blobs into the two temporary files it creates
itself and returns the two file paths (its docstring: "Returns: Tuple of
(cert_file_path, key_file_path)"). -/
def generate_self_signed_cert (certPem keyPem : List Nat)
    (certPath keyPath : String) : CertGenResult :=
  ⟨[(certPath, certPem), (keyPath, keyPem)], (certPath, keyPath)⟩

/-- Counterexample to C3 at a concrete input: the generator's result value
is the pair of temporary file paths — not the pair of PEM byte sequences —
and the generator itself materializes the temporary files (its write set is
nonempty), so temp-file materialization is part of `generate`, not left to
the surrounding CLI. -/
theorem generate_cert_returns_paths_counterexample :
    (generate_self_signed_cert [48, 49] [50, 51] "/tmp/skyhook_a.crt"
      "/tmp/skyhook_b.key").ret = ("/tmp/skyhook_a.crt", "/tmp/skyhook_b.key")
    ∧ (generate_self_signed_cert [48, 49] [50, 51] "/tmp/skyhook_a.crt"
        "/tmp/skyhook_b.key").filesWritten ≠ [] :=
  ⟨rfl, by simp [generate_self_signed_cert]⟩

/-- C3 amended: the generator returns the pair of filesystem paths of two
temporary files that it has itself created and filled with, respectively,
the PEM-encoded certificate bytes and the PEM-encoded unencrypted
private-key bytes; deleting those files after shutdown is the surrounding
CLI's responsibility (main.py lines 142-147). -/
theorem generate_cert_contract (certPem keyPem : List Nat)
    (certPath keyPath : String) :
    (generate_self_signed_cert certPem keyPem certPath keyPath).ret =
        (certPath, keyPath)
    ∧ (generate_self_signed_cert certPem keyPem certPath keyPath).filesWritten =
        [(certPath, certPem), (keyPath, keyPem)] :=
  ⟨rfl, rfl⟩

end Skyhook
